import Mathlib

/-!
# Verification of the commit_batch socket server

A shallow embedding of `examples/commit_batch/src/main.rs`: a single-process
server exposing a key-value store (the external `nomt` engine) over a Unix
socket with a length-prefixed binary request protocol.

External collaborators (the `nomt` store engine, the `sha2` digest, the
`prost` protobuf codec) are modelled at their interface boundary: the digest,
the root function and the payload codec are parameters of the embedded
functions, and the store's committed state is modelled as an association
list from paths to values.  Everything the Rust file itself does — framing,
decoding dispatch, key derivation plumbing, batch assembly and sorting,
session replacement, the connection loop and the accept loop — is translated
directly from the source.
-/

namespace CommitBatch

abbrev Bytes := List Nat

abbrev KeyPath := List Nat

abbrev StoreMap := List (KeyPath × Bytes)

/-- Lexicographic `<=` on raw byte strings: the `Ord` instance Rust uses for
`[u8; 32]` keys in `sort_by_key` (all paths have equal width, so array
ordering is plain lexicographic ordering on the raw bytes). -/
def bytesLe : Bytes → Bytes → Bool
  | [], _ => true
  | _ :: _, [] => false
  | a :: as, b :: bs => if a < b then true else if b < a then false else bytesLe as bs

/-- Lexicographic `<` on raw byte strings. -/
def bytesLt : Bytes → Bytes → Bool
  | [], [] => false
  | [], _ :: _ => true
  | _ :: _, [] => false
  | a :: as, b :: bs => if a < b then true else if b < a then false else bytesLt as bs

/-- The length decode `u32::from_be_bytes` on the 4-byte buffer (big-endian). -/
def u32FromBe (b : Bytes) : Nat :=
  match b with
  | [b0, b1, b2, b3] => (b0 % 256) * 16777216 + (b1 % 256) * 65536 + (b2 % 256) * 256 + b3 % 256
  | _ => 0

/-- Big-endian 4-byte encoding of a length, as a client would frame it. -/
def be32 (n : Nat) : Bytes :=
  [n / 16777216 % 256, n / 65536 % 256, n / 256 % 256, n % 256]

/-- The store's `nomt::KeyReadWrite` as used by the dispatcher: only the
`Write` operation occurs, with `Some value` for a write and `None` for a
delete. -/
inductive KeyReadWrite where
  | Write (v : Option Bytes)
deriving DecidableEq, Repr

/-- The request envelope's payload variants (generated protobuf oneof). -/
inductive ReqVariant where
  | root
  | get (key : Bytes)
  | prefetch (key : Bytes)
  | update (items : List (Bytes × Bytes))
  | close
deriving DecidableEq, Repr

/-- The decoded request envelope: the oneof field is optional, exactly as in
the prost-generated `Request { request: Option<request::Request> }`. -/
structure Request where
  request : Option ReqVariant
deriving DecidableEq, Repr

/-- The response envelope's payload variants. -/
inductive RespVariant where
  | root (root : Bytes)
  | get (value : Bytes)
  | prefetch
  | update (root : Bytes)
  | close
deriving DecidableEq, Repr

/-- The response envelope: an `i32` error code plus an optional variant. -/
structure Response where
  err_code : Int
  response : Option RespVariant
deriving DecidableEq, Repr

/-- Store lookup at a path (the session's `read` capability, modelled at the
store's interface boundary). -/
def lookupPath : StoreMap → KeyPath → Option Bytes
  | [], _ => none
  | (p, v) :: rest, q => if p = q then some v else lookupPath rest q

/-- Remove a path binding (models the effect of a committed delete). -/
def removePath : StoreMap → KeyPath → StoreMap
  | [], _ => []
  | (p, v) :: rest, q => if p = q then removePath rest q else (p, v) :: removePath rest q

/-- Insert or overwrite a path binding (models the effect of a committed write). -/
def insertPath (m : StoreMap) (p : KeyPath) (v : Bytes) : StoreMap :=
  (p, v) :: removePath m p

/-- The store's `commit` applied to a batch, modelled at the interface
boundary: writes insert, deletes remove, in batch order. -/
def applyBatch (m : StoreMap) (batch : List (KeyPath × KeyReadWrite)) : StoreMap :=
  batch.foldl
    (fun acc it =>
      match it.2 with
      | .Write (some v) => insertPath acc it.1 v
      | .Write none => removePath acc it.1) m

/-- Server-side state threaded through dispatch: the store's committed
contents and the identifier of the one live session.  `begin_session`
hands out consecutive identifiers, so the session obtained after a commit
is distinguishable from the one the commit consumed. -/
structure StoreState where
  map : StoreMap
  sessionCounter : Nat
deriving DecidableEq, Repr

/-- Observable events of one request's handling, in program order: session
reads (`session.read`), warm-ups (`session.warm_up`), commits
(`nomt.commit(session, batch)` — carrying the batch handed over),
session replacement (`nomt.begin_session`) and the response write. -/
inductive Event where
  | sessionRead (sid : Nat) (p : KeyPath)
  | sessionWarm (sid : Nat) (p : KeyPath)
  | commit (sid : Nat) (batch : List (KeyPath × KeyReadWrite))
  | beginSession (sid : Nat)
  | writeResponse
deriving DecidableEq, Repr

/-- Does an event read from, write through, or consume the given session?
(`beginSession` creates a session; it does not use the old one.) -/
def usesSession (sid : Nat) : Event → Bool
  | .sessionRead s _ => s = sid
  | .sessionWarm s _ => s = sid
  | .commit s _ => s = sid
  | .beginSession _ => false
  | .writeResponse => false

/-- One line of the Update arm's closure: derive the path from the key and
map a zero-length value to `Write None` (delete), anything else to
`Write (Some value)`. -/
def toAccess (digest : Bytes → KeyPath) (item : Bytes × Bytes) : KeyPath × KeyReadWrite :=
  (digest item.1,
   KeyReadWrite.Write (match item.2.length with | 0 => none | _ => some item.2))

/-- The comparison `sort_by_key(|(k, _)| *k)` induces on batch items:
compare on the derived path only. -/
def byPathLe (a b : KeyPath × KeyReadWrite) : Bool :=
  bytesLe a.1 b.1

/-- The batch the Update arm assembles: map every item through `toAccess`,
then stable-sort ascending by derived path (`actual_access.sort_by_key`). -/
def updateBatch (digest : Bytes → KeyPath) (items : List (Bytes × Bytes)) :
    List (KeyPath × KeyReadWrite) :=
  (items.map (toAccess digest)).mergeSort byPathLe

/-- The dispatch `match request.request.unwrap() { ... }` of `handle_client`:
produce the response, the successor state and the session events of the arm,
in program order. -/
def dispatch (digest : Bytes → KeyPath) (rootOf : StoreMap → Bytes)
    (st : StoreState) : ReqVariant → Response × StoreState × List Event
  | .root =>
    (⟨0, some (.root (rootOf st.map))⟩, st, [])
  | .get key =>
    let key_path := digest key
    match lookupPath st.map key_path with
    | some value =>
      (⟨0, some (.get value)⟩, st, [.sessionRead st.sessionCounter key_path])
    | none =>
      (⟨1, none⟩, st, [.sessionRead st.sessionCounter key_path])
  | .prefetch key =>
    let key_path := digest key
    (⟨0, some .prefetch⟩, st, [.sessionWarm st.sessionCounter key_path])
  | .update items =>
    let actual_access := updateBatch digest items
    let newMap := applyBatch st.map actual_access
    (⟨0, some (.update (rootOf newMap))⟩,
     ⟨newMap, st.sessionCounter + 1⟩,
     [.commit st.sessionCounter actual_access, .beginSession (st.sessionCounter + 1)])
  | .close =>
    (⟨0, some .close⟩, st, [])

/-- Outcome of `handle_client` on one connection's incoming byte stream:
either the loop breaks (connection end) and the current session/state is
returned, or an `unwrap` panics and the process aborts.  `out` is the
byte stream written back to the socket, `tr` the session-event history. -/
inductive ConnOutcome where
  | finished (st : StoreState) (out : Bytes) (tr : List Event)
  | panicked (out : Bytes) (tr : List Event)
deriving DecidableEq, Repr

/-- Bytes written to the socket over the connection. -/
def ConnOutcome.out : ConnOutcome → Bytes
  | .finished _ o _ => o
  | .panicked o _ => o

/-- Session-event history of the connection. -/
def ConnOutcome.trace : ConnOutcome → List Event
  | .finished _ _ t => t
  | .panicked _ t => t

/-- Prepend one loop iteration's written bytes and events to the outcome of
the remaining iterations. -/
def ConnOutcome.prepend (b : Bytes) (t : List Event) : ConnOutcome → ConnOutcome
  | .finished st o tr => .finished st (b ++ o) (t ++ tr)
  | .panicked o tr => .panicked (b ++ o) (t ++ tr)

/-- The `loop { ... }` of `handle_client`, on the connection's incoming byte
stream: read 4 length bytes (break on shortfall), read that many payload
bytes (break on shortfall), decode (`unwrap`: panic on failure), take the
envelope's oneof field (`unwrap`: panic when unset), dispatch, write the
encoded response bare, and continue on the remaining input. -/
def runConn (digest : Bytes → KeyPath) (rootOf : StoreMap → Bytes)
    (decode : Bytes → Option Request) (encode : Response → Bytes)
    (st : StoreState) (input : Bytes) : ConnOutcome :=
  if _h4 : input.length < 4 then
    .finished st [] []
  else
    let message_length := u32FromBe (input.take 4)
    let rest := input.drop 4
    if _hp : rest.length < message_length then
      .finished st [] []
    else
      match decode (rest.take message_length) with
      | none => .panicked [] []
      | some req =>
        match req.request with
        | none => .panicked [] []
        | some v =>
          let r := dispatch digest rootOf st v
          (runConn digest rootOf decode encode r.2.1 (rest.drop message_length)).prepend
            (encode r.1) (r.2.2 ++ [.writeResponse])
termination_by input.length
decreasing_by
  simp only [List.length_drop]
  omega

/-- Outcome of the accept loop of `main`: the per-connection output streams,
with the final state when the process keeps running, or truncated at the
connection whose handler panicked (the process aborts). -/
inductive ServerOutcome where
  | running (st : StoreState) (outs : List Bytes)
  | aborted (outs : List Bytes)
deriving DecidableEq, Repr

/-- The `for stream in listener.incoming()` loop of `main`: each accepted
connection is handled to completion with the session returned by the
previous one. -/
def serverRun (digest : Bytes → KeyPath) (rootOf : StoreMap → Bytes)
    (decode : Bytes → Option Request) (encode : Response → Bytes)
    (st : StoreState) : List Bytes → ServerOutcome
  | [] => .running st []
  | conn :: conns =>
    match runConn digest rootOf decode encode st conn with
    | .finished st1 out _ =>
      match serverRun digest rootOf decode encode st1 conns with
      | .running stF outs => .running stF (out :: outs)
      | .aborted outs => .aborted (out :: outs)
    | .panicked out _ => .aborted [out]

/-- A client-side frame: 4 big-endian length bytes, then the payload. -/
def frameOf (payload : Bytes) : Bytes :=
  be32 payload.length ++ payload

/-- A concrete 32-byte-wide test digest used to instantiate closed
statements (a stand-in for the pinned external `sha2::Sha256`; the
properties under test depend only on the digest being a deterministic
function to 32-byte paths, never on the hash's internals). -/
def testDigest (k : Bytes) : KeyPath :=
  (k ++ List.replicate 32 0).take 32

/-- A concrete root function for closed instances of the abstract store
root parameter. -/
def testRoot (m : StoreMap) : Bytes :=
  List.replicate 32 (m.length % 256)

/-- A concrete payload decoder for closed instances.  It has the protobuf
property the envelope decoder guarantees: the empty payload decodes
successfully to the default envelope, whose oneof field is unset. -/
def testDecode : Bytes → Option Request
  | [] => some ⟨none⟩
  | [0] => some ⟨some .root⟩
  | [1] => some ⟨some .close⟩
  | [2] => some ⟨some (.update [([1], [7])])⟩
  | [3] => some ⟨some (.get [1])⟩
  | _ => none

/-- A concrete response encoder for closed instances. -/
def testEncode (r : Response) : Bytes :=
  [r.err_code.toNat, r.response.elim 0 fun _ => 1]

/-- Round trip: the length the server decodes from a client-framed header
is the framed payload length. -/
theorem u32FromBe_be32 (n : Nat) (h : n < 4294967296) : u32FromBe (be32 n) = n := by
  simp [u32FromBe, be32]
  omega

/-- One iteration of the connection loop on a well-formed frame whose
payload decodes to an envelope with its oneof set: the loop consumes
exactly the 4 length bytes plus the declared number of payload bytes,
writes exactly the bare encoded response, and continues on the remaining
input with the dispatch's successor state. -/
theorem runConn_frame_step (digest : Bytes → KeyPath) (rootOf : StoreMap → Bytes)
    (decode : Bytes → Option Request) (encode : Response → Bytes)
    (st : StoreState) (payload rest : Bytes) (req : Request) (v : ReqVariant)
    (hlen : payload.length < 4294967296)
    (hdec : decode payload = some req) (hv : req.request = some v) :
    runConn digest rootOf decode encode st (frameOf payload ++ rest) =
      (runConn digest rootOf decode encode (dispatch digest rootOf st v).2.1 rest).prepend
        (encode (dispatch digest rootOf st v).1)
        ((dispatch digest rootOf st v).2.2 ++ [Event.writeResponse]) := by
  have hfr : frameOf payload ++ rest =
      payload.length / 16777216 % 256 :: payload.length / 65536 % 256 ::
      payload.length / 256 % 256 :: payload.length % 256 :: (payload ++ rest) := by
    simp [frameOf, be32]
  have hu : u32FromBe [payload.length / 16777216 % 256, payload.length / 65536 % 256,
      payload.length / 256 % 256, payload.length % 256] = payload.length := by
    have := u32FromBe_be32 payload.length hlen
    simpa [be32] using this
  rw [hfr, runConn]
  rw [dif_neg (by simp)]
  simp only [List.take_succ_cons, List.take_zero, List.drop_succ_cons, List.drop_zero, hu]
  rw [dif_neg (by simp)]
  rw [List.take_left, List.drop_left, hdec]
  simp [hv]

/-- Transitivity of the lexicographic byte order. -/
theorem bytesLe_tr (a : Bytes) :
    ∀ b c, bytesLe a b = true → bytesLe b c = true → bytesLe a c = true := by
  induction a with
  | nil => intro b c _ _; rfl
  | cons x xs ih =>
    intro b c hab hbc
    cases b with
    | nil => simp [bytesLe] at hab
    | cons y ys =>
      cases c with
      | nil => simp [bytesLe] at hbc
      | cons z zs =>
        simp only [bytesLe] at hab hbc ⊢
        split_ifs at hab hbc ⊢ <;>
          first
          | rfl
          | (exfalso; omega)
          | (exact ih ys zs hab hbc)

/-- Totality of the lexicographic byte order. -/
theorem bytesLe_tot (a : Bytes) : ∀ b, (bytesLe a b || bytesLe b a) = true := by
  induction a with
  | nil => intro b; simp [bytesLe]
  | cons x xs ih =>
    intro b
    cases b with
    | nil => simp [bytesLe]
    | cons y ys =>
      simp only [bytesLe]
      rcases Nat.lt_trichotomy x y with h | h | h
      · simp [h]
      · subst h
        simpa [Nat.lt_irrefl] using ih ys
      · simp [h, Nat.lt_asymm h]

/-- Weak lexicographic order plus inequality gives the strict order. -/
theorem bytesLt_of_le_of_ne (a : Bytes) :
    ∀ b, bytesLe a b = true → a ≠ b → bytesLt a b = true := by
  induction a with
  | nil =>
    intro b hle hne
    cases b with
    | nil => exact absurd rfl hne
    | cons y ys => rfl
  | cons x xs ih =>
    intro b hle hne
    cases b with
    | nil => simp [bytesLe] at hle
    | cons y ys =>
      simp only [bytesLe] at hle
      simp only [bytesLt]
      split_ifs at hle ⊢ <;>
        first
        | rfl
        | (exfalso; omega)
        | (refine ih ys hle fun h => ?_
           apply hne
           have hxy : x = y := by omega
           rw [hxy, h])

/-- C1 (counterexample): the claim's strictness requirement fails on item
lists whose keys derive to duplicate paths.  Two items with the identical
key `[1]` derive the identical path; `sort_by_key` is a stable sort that
keeps both, so the handed-over batch has an adjacent pair of equal paths,
which is not strictly increasing. -/
theorem update_batch_strict_cex :
    ¬ ((updateBatch testDigest [([1], [7]), ([1], [8])]).map Prod.fst).Chain'
        (fun a b => bytesLt a b = true) := by
  intro h
  have heq : updateBatch testDigest [([1], [7]), ([1], [8])] =
      [(testDigest [1], .Write (some [7])), (testDigest [1], .Write (some [8]))] := by
    simp [updateBatch, toAccess, List.mergeSort, byPathLe, bytesLe, testDigest]
  rw [heq] at h
  simp only [List.map_cons, List.map_nil, List.chain'_cons, List.chain'_singleton,
    and_true] at h
  have : bytesLt (testDigest [1]) (testDigest [1]) = false := by decide
  rw [this] at h
  exact Bool.false_ne_true h

/-- C1 (amended): for every Update, the batch handed to the store's commit
is the item list mapped to `(derived path, operation)` pairs reordered into
ascending lexicographic order on the raw path bytes (non-strict in general);
whenever the items' derived paths are pairwise distinct the adjacent pairs
are strictly increasing. -/
theorem update_batch_sorted (digest : Bytes → KeyPath) (items : List (Bytes × Bytes)) :
    ((updateBatch digest items).map Prod.fst).Pairwise (fun a b => bytesLe a b = true)
    ∧ (updateBatch digest items).Perm (items.map (toAccess digest))
    ∧ ((items.map fun it => digest it.1).Nodup →
        ((updateBatch digest items).map Prod.fst).Chain' (fun a b => bytesLt a b = true)) := by
  have hperm : (updateBatch digest items).Perm (items.map (toAccess digest)) :=
    List.mergeSort_perm (items.map (toAccess digest)) byPathLe
  have hsorted :
      ((updateBatch digest items).map Prod.fst).Pairwise (fun a b => bytesLe a b = true) := by
    have h := @List.sorted_mergeSort _ byPathLe
      (fun a b c => bytesLe_tr a.1 b.1 c.1)
      (fun a b => bytesLe_tot a.1 b.1)
      (items.map (toAccess digest))
    exact List.pairwise_map.mpr h
  refine ⟨hsorted, hperm, fun hnd => ?_⟩
  have hpaths : ((updateBatch digest items).map Prod.fst).Perm
      (items.map fun it => digest it.1) := by
    have h1 : (items.map (toAccess digest)).map Prod.fst =
        items.map fun it => digest it.1 := by
      simp [toAccess, Function.comp]
    have h2 := hperm.map Prod.fst
    rwa [h1] at h2
  have hnodup : ((updateBatch digest items).map Prod.fst).Nodup :=
    hpaths.symm.nodup hnd
  have hstrict : ((updateBatch digest items).map Prod.fst).Pairwise
      (fun a b => bytesLt a b = true) :=
    (hsorted.and hnodup).imp fun hab => bytesLt_of_le_of_ne _ _ hab.1 hab.2
  exact hstrict.chain'

/-- C1 (witness for the amended theorem): with two items whose keys derive
to distinct paths, the handed-over batch is strictly ascending. -/
theorem update_batch_sorted_witness :
    ((updateBatch testDigest [([2], [9]), ([1], [7])]).map Prod.fst).Chain'
      (fun a b => bytesLt a b = true) :=
  (update_batch_sorted testDigest [([2], [9]), ([1], [7])]).2.2 (by decide)

@[simp]
theorem ConnOutcome.trace_prepend (b : Bytes) (t : List Event) (o : ConnOutcome) :
    (o.prepend b t).trace = t ++ o.trace := by
  cases o <;> rfl

@[simp]
theorem ConnOutcome.out_prepend (b : Bytes) (t : List Event) (o : ConnOutcome) :
    (o.prepend b t).out = b ++ o.out := by
  cases o <;> rfl

/-- Every session event a dispatch arm emits goes through the state's one
live session. -/
theorem dispatch_ev_use (digest : Bytes → KeyPath) (rootOf : StoreMap → Bytes)
    (st : StoreState) (v : ReqVariant) :
    ∀ e ∈ (dispatch digest rootOf st v).2.2, ∀ s, usesSession s e = true →
      s = st.sessionCounter := by
  cases v with
  | root => simp [dispatch]
  | close => simp [dispatch]
  | get key =>
    rcases h : lookupPath st.map (digest key) with _ | val <;>
      (intro e he s hu
       simp [dispatch, h] at he
       subst he
       simp [usesSession] at hu
       omega)
  | prefetch key =>
    intro e he s hu
    simp [dispatch] at he
    subst he
    simp [usesSession] at hu
    omega
  | update items =>
    intro e he s hu
    simp [dispatch] at he
    rcases he with he | he <;> subst he <;> simp [usesSession] at hu <;> omega

/-- Dispatch never decreases the session counter. -/
theorem dispatch_counter_mono (digest : Bytes → KeyPath) (rootOf : StoreMap → Bytes)
    (st : StoreState) (v : ReqVariant) :
    st.sessionCounter ≤ (dispatch digest rootOf st v).2.1.sessionCounter := by
  cases v with
  | get key => rcases h : lookupPath st.map (digest key) with _ | val <;> simp [dispatch, h]
  | update items => simp [dispatch]
  | _ => simp [dispatch]

/-- Every session event of a connection run uses a session at least as
recent as the live one at the start of the run. -/
theorem runConn_trace_sid_lb (digest : Bytes → KeyPath) (rootOf : StoreMap → Bytes)
    (decode : Bytes → Option Request) (encode : Response → Bytes)
    (st : StoreState) (input : Bytes) :
    ∀ e ∈ (runConn digest rootOf decode encode st input).trace,
      ∀ s, usesSession s e = true → st.sessionCounter ≤ s := by
  rw [runConn]
  split
  · simp [ConnOutcome.trace]
  · dsimp only
    split
    · simp [ConnOutcome.trace]
    · split
      · simp [ConnOutcome.trace]
      · split
        · simp [ConnOutcome.trace]
        · next v _ =>
          intro e he s hu
          rw [ConnOutcome.trace_prepend] at he
          rcases List.mem_append.mp he with he | he
          · rcases List.mem_append.mp he with he | he
            · exact (dispatch_ev_use digest rootOf st v e he s hu).ge
            · simp at he
              subst he
              simp [usesSession] at hu
          · have h1 := runConn_trace_sid_lb digest rootOf decode encode
              (dispatch digest rootOf st v).2.1 _ e he s hu
            exact le_trans (dispatch_counter_mono digest rootOf st v) h1
termination_by input.length
decreasing_by
  simp only [List.length_drop]
  omega

/-- Within one loop iteration (dispatch events followed by the response
write), any commit consumes the state's live session, the successor state's
session is the fresh one, and no event after the commit touches the
committed session. -/
theorem dispatch_after_commit (digest : Bytes → KeyPath) (rootOf : StoreMap → Bytes)
    (st : StoreState) (v : ReqVariant) :
    ∀ (l₁ : List Event) (s : Nat) (batch : List (KeyPath × KeyReadWrite)) (l₂ : List Event),
      (dispatch digest rootOf st v).2.2 ++ [Event.writeResponse] =
        l₁ ++ Event.commit s batch :: l₂ →
      (∀ e ∈ l₂, usesSession s e = false) ∧ s = st.sessionCounter ∧
        (dispatch digest rootOf st v).2.1.sessionCounter = s + 1 := by
  intro l₁ s batch l₂ h
  cases v with
  | root =>
    simp only [dispatch, List.nil_append] at h
    rcases l₁ with _ | ⟨a, l₁⟩ <;> simp_all
  | close =>
    simp only [dispatch, List.nil_append] at h
    rcases l₁ with _ | ⟨a, l₁⟩ <;> simp_all
  | get key =>
    rcases hl : lookupPath st.map (digest key) with _ | val <;>
      simp only [dispatch, hl] at h <;>
      rcases l₁ with _ | ⟨a, _ | ⟨b, l₁⟩⟩ <;> simp_all
  | prefetch key =>
    simp only [dispatch] at h
    rcases l₁ with _ | ⟨a, _ | ⟨b, l₁⟩⟩ <;> simp_all
  | update items =>
    simp only [dispatch] at h
    rcases l₁ with _ | ⟨a, _ | ⟨b, _ | ⟨c, l₁⟩⟩⟩
    · rw [List.nil_append] at h
      injection h with h1 h2
      injection h1 with hs hb
      subst hs
      subst h2
      refine ⟨?_, rfl, rfl⟩
      intro e he
      simp only [List.append_eq, List.cons_append, List.nil_append] at he
      rcases List.mem_cons.mp he with he | he
      · subst he; rfl
      · simp at he; subst he; rfl
    · simp_all
    · simp_all
    · simp_all

/-- Once a session is passed into a commit, no later event of the
connection run reads it, warms it up, or commits it again. -/
theorem runConn_no_use_after (digest : Bytes → KeyPath) (rootOf : StoreMap → Bytes)
    (decode : Bytes → Option Request) (encode : Response → Bytes)
    (st : StoreState) (input : Bytes) :
    ∀ (l₁ : List Event) (s : Nat) (batch : List (KeyPath × KeyReadWrite)) (l₂ : List Event),
      (runConn digest rootOf decode encode st input).trace =
        l₁ ++ Event.commit s batch :: l₂ →
      ∀ e ∈ l₂, usesSession s e = false := by
  rw [runConn]
  split
  · intro l₁ s batch l₂ h
    simp [ConnOutcome.trace] at h
  · dsimp only
    split
    · intro l₁ s batch l₂ h
      simp [ConnOutcome.trace] at h
    · split
      · intro l₁ s batch l₂ h
        simp [ConnOutcome.trace] at h
      · split
        · intro l₁ s batch l₂ h
          simp [ConnOutcome.trace] at h
        · next v _ =>
          intro l₁ s batch l₂ h
          rw [ConnOutcome.trace_prepend] at h
          rcases List.append_eq_append_iff.mp h with ⟨as, _, ha2⟩ | ⟨cs, hc1, hc2⟩
          · exact runConn_no_use_after digest rootOf decode encode
              (dispatch digest rootOf st v).2.1 _ as s batch l₂ ha2
          · rcases cs with _ | ⟨chead, ctail⟩
            · rw [List.nil_append] at hc2
              exact runConn_no_use_after digest rootOf decode encode
                (dispatch digest rootOf st v).2.1 _ [] s batch l₂ hc2.symm
            · rw [List.cons_append] at hc2
              injection hc2 with hh ht
              subst hh
              obtain ⟨hctail, hs, hc⟩ :=
                dispatch_after_commit digest rootOf st v l₁ s batch ctail hc1
              intro e he
              rw [ht] at he
              rcases List.mem_append.mp he with he | he
              · exact hctail e he
              · cases hu : usesSession s e with
                | false => rfl
                | true =>
                  have := runConn_trace_sid_lb digest rootOf decode encode
                    (dispatch digest rootOf st v).2.1 _ e he s hu
                  rw [hc] at this
                  omega
termination_by input.length
decreasing_by
  repeat
    simp only [List.length_drop]
    omega

/-- C2: for every Update request the commit consumes the state's live
session and a fresh session is begun synchronously within the same arm,
before the response-write event; the successor state again holds a live
session (the fresh one, distinct from the consumed one); and over any
whole connection run, a session passed into a commit is never read from,
warmed through, or committed again afterward. -/
theorem update_session_discipline (digest : Bytes → KeyPath) (rootOf : StoreMap → Bytes)
    (decode : Bytes → Option Request) (encode : Response → Bytes)
    (st : StoreState) (items : List (Bytes × Bytes)) (input : Bytes) :
    (dispatch digest rootOf st (.update items)).2.2 ++ [Event.writeResponse] =
      [Event.commit st.sessionCounter (updateBatch digest items),
       Event.beginSession (st.sessionCounter + 1), Event.writeResponse]
    ∧ (dispatch digest rootOf st (.update items)).2.1.sessionCounter = st.sessionCounter + 1
    ∧ (dispatch digest rootOf st (.update items)).2.1.sessionCounter ≠ st.sessionCounter
    ∧ (∀ (l₁ : List Event) (s : Nat) (batch : List (KeyPath × KeyReadWrite)) (l₂ : List Event),
        (runConn digest rootOf decode encode st input).trace =
          l₁ ++ Event.commit s batch :: l₂ →
        ∀ e ∈ l₂, usesSession s e = false) :=
  ⟨rfl, rfl, by simp [dispatch], runConn_no_use_after digest rootOf decode encode st input⟩

/-- C2 (witness): on the concrete single-Update connection, after session 0
is committed the remaining events (the fresh session's creation and the
response write) do not use session 0. -/
theorem update_session_discipline_witness :
    usesSession 0 (Event.beginSession 1) = false := by
  have h := update_session_discipline testDigest testRoot testDecode testEncode
    ⟨[], 0⟩ [([1], [7])] (frameOf [2])
  refine h.2.2.2 [] 0 (updateBatch testDigest [([1], [7])])
    [Event.beginSession 1, Event.writeResponse] ?_ (Event.beginSession 1) (by simp)
  simp [runConn, frameOf, be32, u32FromBe, testDecode, dispatch, ConnOutcome.trace,
    ConnOutcome.prepend]

/-- C3: for every item of every Update batch, a zero-length value maps to
the delete operation (a `Write` carrying no value) and a value of length
at least one maps to a write of exactly that value; the mapping is applied
item-wise before the sort, and the sorted result is the batch handed to
the commit. -/
theorem update_value_mapping (digest : Bytes → KeyPath) (rootOf : StoreMap → Bytes)
    (st : StoreState) (items : List (Bytes × Bytes)) :
    (∀ it ∈ items, toAccess digest it =
      (digest it.1, KeyReadWrite.Write (if it.2 = [] then none else some it.2)))
    ∧ updateBatch digest items = (items.map (toAccess digest)).mergeSort byPathLe
    ∧ (dispatch digest rootOf st (.update items)).2.2 =
        [Event.commit st.sessionCounter ((items.map (toAccess digest)).mergeSort byPathLe),
         Event.beginSession (st.sessionCounter + 1)] := by
  refine ⟨?_, rfl, rfl⟩
  intro it _
  obtain ⟨k, val⟩ := it
  rcases val with _ | ⟨x, xs⟩ <;> simp [toAccess]

/-- C3 (witness): the mapping at two concrete items, one empty-valued
(delete) and one non-empty-valued (write). -/
theorem update_value_mapping_witness :
    toAccess testDigest ([1], []) = (testDigest [1], KeyReadWrite.Write none)
    ∧ toAccess testDigest ([2], [5]) = (testDigest [2], KeyReadWrite.Write (some [5])) := by
  have h := (update_value_mapping testDigest testRoot ⟨[], 0⟩ [([1], []), ([2], [5])]).1
  exact ⟨by simpa using h ([1], []) (by simp), by simpa using h ([2], [5]) (by simp)⟩

/-- C4: a Get whose derived path the store's read reports present yields
err_code 0 carrying the stored value; one whose derived path is reported
absent yields err_code 1 with no payload variant. -/
theorem get_response (digest : Bytes → KeyPath) (rootOf : StoreMap → Bytes)
    (st : StoreState) (key : Bytes) :
    (∀ v, lookupPath st.map (digest key) = some v →
      (dispatch digest rootOf st (.get key)).1 = ⟨0, some (.get v)⟩)
    ∧ (lookupPath st.map (digest key) = none →
      (dispatch digest rootOf st (.get key)).1 = ⟨1, none⟩) := by
  constructor
  · intro v hv
    simp [dispatch, hv]
  · intro hv
    simp [dispatch, hv]

/-- C4 (witness): a present key answers 0 with its value; an absent key
answers 1 with no payload. -/
theorem get_response_witness :
    (dispatch testDigest testRoot ⟨[(testDigest [1], [5])], 0⟩ (.get [1])).1 =
      ⟨0, some (.get [5])⟩
    ∧ (dispatch testDigest testRoot ⟨[(testDigest [1], [5])], 0⟩ (.get [2])).1 =
      ⟨1, none⟩ :=
  ⟨(get_response testDigest testRoot ⟨[(testDigest [1], [5])], 0⟩ [1]).1 [5] (by decide),
   (get_response testDigest testRoot ⟨[(testDigest [1], [5])], 0⟩ [2]).2 (by decide)⟩

/-- Does a response payload variant match a request variant? -/
def variantMatches : ReqVariant → RespVariant → Bool
  | .root, .root _ => true
  | .get _, .get _ => true
  | .prefetch _, .prefetch => true
  | .update _, .update _ => true
  | .close, .close => true
  | _, _ => false

/-- C5: every dispatched response satisfies `err_code = 0` iff a payload
variant is present (exactly one of non-zero error code and present payload
holds), and a present variant matches the request variant. -/
theorem response_wellformed (digest : Bytes → KeyPath) (rootOf : StoreMap → Bytes)
    (st : StoreState) (v : ReqVariant) :
    ((dispatch digest rootOf st v).1.err_code = 0 ↔
      ((dispatch digest rootOf st v).1.response).isSome = true)
    ∧ ∀ rv, (dispatch digest rootOf st v).1.response = some rv →
        variantMatches v rv = true := by
  cases v with
  | get key =>
    rcases h : lookupPath st.map (digest key) with _ | val <;>
      simp [dispatch, h, variantMatches]
  | _ => simp [dispatch, variantMatches]

/-- C5 (witness): the Root arm's concrete response has code 0, a present
payload, and a matching variant. -/
theorem response_wellformed_witness :
    variantMatches ReqVariant.root (RespVariant.root (testRoot [])) = true :=
  (response_wellformed testDigest testRoot ⟨[], 0⟩ .root).2
    (RespVariant.root (testRoot [])) rfl

/-- C9: an Update with an empty items list is not rejected or
short-circuited: the commit capability is still invoked with the empty
batch, the session is consumed and replaced, and the response is
err_code 0 carrying the store's resulting root. -/
theorem empty_update (digest : Bytes → KeyPath) (rootOf : StoreMap → Bytes)
    (st : StoreState) :
    dispatch digest rootOf st (.update []) =
      (⟨0, some (.update (rootOf st.map))⟩,
       ⟨st.map, st.sessionCounter + 1⟩,
       [Event.commit st.sessionCounter [], Event.beginSession (st.sessionCounter + 1)])
    ∧ updateBatch digest [] = [] := by
  have hb : updateBatch digest [] = [] := by simp [updateBatch]
  refine ⟨?_, hb⟩
  simp [dispatch, hb, applyBatch]

/-- C6: framing is asymmetric.  For an incoming message the loop reads
exactly 4 big-endian length bytes and then exactly the declared number of
payload bytes (the continuation runs on precisely the remaining input);
for the outgoing response it writes only the raw encoded payload bytes —
on a single-frame connection the entire output is the bare encoding, with
no length prefix prepended. -/
theorem framing_asymmetric (digest : Bytes → KeyPath) (rootOf : StoreMap → Bytes)
    (decode : Bytes → Option Request) (encode : Response → Bytes)
    (st : StoreState) (payload rest : Bytes) (req : Request) (v : ReqVariant)
    (hlen : payload.length < 4294967296)
    (hdec : decode payload = some req) (hv : req.request = some v) :
    runConn digest rootOf decode encode st (frameOf payload ++ rest) =
      (runConn digest rootOf decode encode (dispatch digest rootOf st v).2.1 rest).prepend
        (encode (dispatch digest rootOf st v).1)
        ((dispatch digest rootOf st v).2.2 ++ [Event.writeResponse])
    ∧ (runConn digest rootOf decode encode st (frameOf payload)).out =
        encode (dispatch digest rootOf st v).1 := by
  refine ⟨runConn_frame_step digest rootOf decode encode st payload rest req v hlen hdec hv, ?_⟩
  have h2 := runConn_frame_step digest rootOf decode encode st payload [] req v hlen hdec hv
  rw [List.append_nil] at h2
  rw [h2, ConnOutcome.out_prepend]
  have h3 : runConn digest rootOf decode encode (dispatch digest rootOf st v).2.1 [] =
      .finished (dispatch digest rootOf st v).2.1 [] [] := by
    rw [runConn]
    simp
  rw [h3]
  simp [ConnOutcome.out]

/-- C6 (witness): on a concrete single-frame connection carrying a Close,
the bytes written back are exactly the bare encoded response. -/
theorem framing_asymmetric_witness :
    (runConn testDigest testRoot testDecode testEncode ⟨[], 0⟩ (frameOf [1])).out =
      testEncode ⟨0, some .close⟩ := by
  have h := framing_asymmetric testDigest testRoot testDecode testEncode ⟨[], 0⟩
    [1] [] ⟨some .close⟩ .close (by decide) (by decide) rfl
  simpa [dispatch] using h.2

/-- C7: on a connection whose frame read fails — a truncated 4-byte length
header, or a payload shorter than the header's declared length — the loop
terminates writing no bytes, the current session state is returned intact,
and the accept loop proceeds to the next connection with that state. -/
theorem framing_failure (digest : Bytes → KeyPath) (rootOf : StoreMap → Bytes)
    (decode : Bytes → Option Request) (encode : Response → Bytes)
    (st : StoreState) (input lenBytes short : Bytes) (conns : List Bytes)
    (hshortLen : input.length < 4)
    (h4 : lenBytes.length = 4) (hshort : short.length < u32FromBe lenBytes) :
    runConn digest rootOf decode encode st input = .finished st [] []
    ∧ runConn digest rootOf decode encode st (lenBytes ++ short) = .finished st [] []
    ∧ serverRun digest rootOf decode encode st ((lenBytes ++ short) :: conns) =
        (match serverRun digest rootOf decode encode st conns with
         | .running stF outs => .running stF ([] :: outs)
         | .aborted outs => .aborted ([] :: outs)) := by
  have hA : runConn digest rootOf decode encode st input = .finished st [] [] := by
    rw [runConn]
    rw [dif_pos hshortLen]
  have hB : runConn digest rootOf decode encode st (lenBytes ++ short) =
      .finished st [] [] := by
    rcases lenBytes with _ | ⟨b0, _ | ⟨b1, _ | ⟨b2, _ | ⟨b3, _ | ⟨b4, t⟩⟩⟩⟩⟩ <;>
      simp only [List.length_nil, List.length_cons] at h4 <;> try omega
    rw [runConn]
    rw [dif_neg (by simp)]
    simp only [List.cons_append, List.nil_append, List.take_succ_cons, List.take_zero,
      List.drop_succ_cons, List.drop_zero]
    rw [dif_pos hshort]
  refine ⟨hA, hB, ?_⟩
  simp [serverRun, hB]

/-- C7 (witness): the spec's scenario 5 — a header declaring 100 bytes with
only 10 delivered — closes the connection with no response, keeps the
session state, and the server still serves a following well-formed
connection. -/
theorem framing_failure_witness :
    runConn testDigest testRoot testDecode testEncode ⟨[], 0⟩
        ([0, 0, 0, 100] ++ [1, 2, 3, 4, 5, 6, 7, 8, 9, 10]) =
      .finished ⟨[], 0⟩ [] []
    ∧ serverRun testDigest testRoot testDecode testEncode ⟨[], 0⟩
        [[0, 0, 0, 100] ++ [1, 2, 3, 4, 5, 6, 7, 8, 9, 10], frameOf [1]] =
      .running ⟨[], 0⟩ [[], testEncode ⟨0, some .close⟩] := by
  have h := framing_failure testDigest testRoot testDecode testEncode ⟨[], 0⟩
    [] [0, 0, 0, 100] [1, 2, 3, 4, 5, 6, 7, 8, 9, 10] [frameOf [1]]
    (by decide) (by decide) (by decide)
  refine ⟨h.2.1, ?_⟩
  rw [h.2.2]
  simp [serverRun, runConn, frameOf, be32, u32FromBe, testDecode, dispatch,
    ConnOutcome.prepend]

/-- C8: a Close request is answered with err_code 0 and the empty Close
payload, and handling it does not terminate the connection or the process:
the loop writes the response and continues reading frames from the
remaining input (termination comes only from the input running out or a
framing/decode failure). -/
theorem close_request (digest : Bytes → KeyPath) (rootOf : StoreMap → Bytes)
    (decode : Bytes → Option Request) (encode : Response → Bytes)
    (st : StoreState) (payload rest : Bytes)
    (hlen : payload.length < 4294967296)
    (hdec : decode payload = some ⟨some .close⟩) :
    dispatch digest rootOf st .close = (⟨0, some .close⟩, st, [])
    ∧ runConn digest rootOf decode encode st (frameOf payload ++ rest) =
        (runConn digest rootOf decode encode st rest).prepend
          (encode ⟨0, some .close⟩) [Event.writeResponse] := by
  refine ⟨rfl, ?_⟩
  have h := runConn_frame_step digest rootOf decode encode st payload rest
    ⟨some .close⟩ .close hlen hdec rfl
  simpa [dispatch] using h

/-- C8 (witness): a connection with two Close frames answers both — the
first Close did not terminate the loop. -/
theorem close_request_witness :
    runConn testDigest testRoot testDecode testEncode ⟨[], 0⟩ (frameOf [1] ++ frameOf [1]) =
      (runConn testDigest testRoot testDecode testEncode ⟨[], 0⟩ (frameOf [1])).prepend
        (testEncode ⟨0, some .close⟩) [Event.writeResponse] :=
  (close_request testDigest testRoot testDecode testEncode ⟨[], 0⟩ [1] (frameOf [1])
    (by decide) (by decide)).2

/-- C10: a frame with declared length 0 is well-framed and accepted; its
empty payload decodes successfully to the default envelope whose oneof
field is unset, and dispatch panics at the `unwrap` of that optional
field: the handler aborts with no response bytes written and no graceful
connection close, and the accept loop processes no further connection. -/
theorem unset_variant_panic (digest : Bytes → KeyPath) (rootOf : StoreMap → Bytes)
    (decode : Bytes → Option Request) (encode : Response → Bytes)
    (st : StoreState) (rest : Bytes) (conns : List Bytes)
    (hdec : decode [] = some ⟨none⟩) :
    runConn digest rootOf decode encode st ([0, 0, 0, 0] ++ rest) = .panicked [] []
    ∧ (∀ st2 out tr,
        runConn digest rootOf decode encode st ([0, 0, 0, 0] ++ rest) ≠
          .finished st2 out tr)
    ∧ serverRun digest rootOf decode encode st (([0, 0, 0, 0] ++ rest) :: conns) =
        .aborted [[]] := by
  have hA : runConn digest rootOf decode encode st ([0, 0, 0, 0] ++ rest) =
      .panicked [] [] := by
    rw [runConn]
    rw [dif_neg (by simp)]
    simp only [List.cons_append, List.nil_append, List.take_succ_cons, List.take_zero,
      List.drop_succ_cons, List.drop_zero]
    rw [dif_neg (by simp [u32FromBe])]
    simp only [u32FromBe, List.take_zero]
    rw [show ((0 % 256) * 16777216 + (0 % 256) * 65536 + (0 % 256) * 256 + 0 % 256) = 0 by rfl]
    rw [List.take_zero, hdec]
  refine ⟨hA, fun st2 out tr h => by rw [hA] at h; exact ConnOutcome.noConfusion h, ?_⟩
  have hA2 : runConn digest rootOf decode encode st (0 :: 0 :: 0 :: 0 :: rest) =
      .panicked [] [] := by simpa using hA
  simp [serverRun, hA2]

/-- C10 (witness): with the protobuf decoder of the concrete instance, the
zero-length frame aborts the process: no output, and a following
connection is never served. -/
theorem unset_variant_panic_witness :
    runConn testDigest testRoot testDecode testEncode ⟨[], 0⟩ [0, 0, 0, 0] =
      .panicked [] []
    ∧ serverRun testDigest testRoot testDecode testEncode ⟨[], 0⟩
        [[0, 0, 0, 0], frameOf [1]] = .aborted [[]] := by
  have h := unset_variant_panic testDigest testRoot testDecode testEncode ⟨[], 0⟩
    [] [frameOf [1]] rfl
  exact ⟨by simpa using h.1, by simpa using h.2.2⟩

end CommitBatch
